import Mathlib

/-!
Verification development for the incident-response workflow engine
(`src/incident_response`).  The Python source is shallowly embedded:

* `Ctx` models the workflow context `dict[str, Any]` threaded through the
  agents, with Python dict assignment / `setdefault` / `update` semantics.
* `parallelRun` embeds `ParallelAgent.run` (agents/base.py).
* `loopRun` embeds `LoopAgent.run` (agents/base.py).
* `verifierRun` / `nextEscalationLevel` embed the verification agent
  (agents/verifier.py).
* `selectAction` / `select_runbook_for_symptom` embed the remediation
  action selection (agents/remediator.py, tools/runbooks.py).
* `Bus` / `emitEvent` / `stepOne` embed the SSE event bus
  (streaming.py) as a small-step system over explicit traces.
* `runPipeline` embeds the orchestrator `run_incident_pipeline`
  (workflow/pipeline.py) parametrised by the three phase functions.
* `runBranchesSeq` embeds `ParallelAgent.run` a second time with an
  explicit store, to reason about Python's shallow `dict.copy()` and
  aliasing of nested mutable values.
-/

namespace IncidentResponse



/-- Escalation tiers, mirroring `models.EscalationLevel`. -/
inductive EscalationLevel where
  | L1_AUTO
  | L2_ONCALL
  | L3_SENIOR
  | L4_MANAGEMENT
deriving DecidableEq, Repr

/-- Values stored in a workflow context.  Python stores arbitrary objects;
the claims only need booleans, ints, strings, the `errors` string map,
the list of remediation-action success flags, and escalation levels. -/
inductive Val where
  | vbool : Bool → Val
  | vnat : Nat → Val
  | vstr : String → Val
  | vemap : List (String × String) → Val
  | vacts : List Bool → Val
  | vlevel : EscalationLevel → Val
deriving DecidableEq, Repr

/-- Python truthiness of a context value (used by `context.get(..., False)`
checks in `LoopAgent.run` and the pipeline). -/
def truthy : Val → Bool
  | .vbool b => b
  | .vnat n => n ≠ 0
  | .vstr s => s ≠ ""
  | .vemap m => !m.isEmpty
  | .vacts l => !l.isEmpty
  | .vlevel _ => true

/-- A workflow context: insertion-ordered string-keyed map, as a Python
`dict[str, Any]`.  Well-formed contexts have no duplicate keys; all
operations below preserve that, matching dict semantics. -/
abbrev Ctx := List (String × Val)

/-- Python `d[key]` read: first (unique) binding of `key`. -/
def ctxLookup : Ctx → String → Option Val
  | [], _ => none
  | (k, v) :: rest, key => if k = key then some v else ctxLookup rest key

/-- Python `d[key] = v`: overwrite in place if present, else append. -/
def ctxInsert : Ctx → String → Val → Ctx
  | [], key, v => [(key, v)]
  | (k, w) :: rest, key, v =>
      if k = key then (key, v) :: rest else (k, w) :: ctxInsert rest key v

/-- Python `d.setdefault(key, v)`. -/
def ctxSetdefault (c : Ctx) (key : String) (v : Val) : Ctx :=
  match ctxLookup c key with
  | some _ => c
  | none => ctxInsert c key v

/-- Python `d.get(key, default)`. -/
def ctxGetD (c : Ctx) (key : String) (default : Val) : Val :=
  (ctxLookup c key).getD default

/-- Python `d.update(other)`: insert `other`'s bindings in order. -/
def ctxUpdate (c : Ctx) (other : List (String × Val)) : Ctx :=
  other.foldl (fun acc kv => ctxInsert acc kv.1 kv.2) c

/-- The value a Python `dict(pairs)`/`update(pairs)` would associate to
`key`: the last occurrence in the pair list wins. -/
def assocLast : List (String × Val) → String → Option Val
  | [], _ => none
  | kv :: rest, key =>
      match assocLast rest key with
      | some v => some v
      | none => if kv.1 = key then some kv.2 else none

/-- A parallel branch: agent name plus its `run` on a context snapshot,
returning either an output context or the raised exception's message. -/
structure PAgent where
  name : String
  run : Ctx → Except String Ctx

/-- `merged.setdefault("errors", {})[agent.name] = str(result)`:
insert-or-overwrite one entry of the errors map (Python dict assignment
on the nested map). -/
def emapInsert : List (String × String) → String → String → List (String × String)
  | [], key, v => [(key, v)]
  | (k, w) :: rest, key, v =>
      if k = key then (key, v) :: rest else (k, w) :: emapInsert rest key v

/-- Read one entry of an errors map. -/
def emapLookup : List (String × String) → String → Option String
  | [], _ => none
  | (k, v) :: rest, key => if k = key then some v else emapLookup rest key

/-- The errors map currently held under `merged["errors"]`; `setdefault`
starts a fresh map when the key is absent.  A non-map value under
`"errors"` would be a caller contract violation in Python (attribute
error); the embedding also treats it as the empty map. -/
def errorsOf (merged : Ctx) : List (String × String) :=
  match ctxLookup merged "errors" with
  | some (.vemap m) => m
  | _ => []

/-- Record a failed branch: `merged.setdefault("errors", {})[name] = msg`. -/
def setErrorsEntry (merged : Ctx) (name msg : String) : Ctx :=
  ctxInsert merged "errors" (.vemap (emapInsert (errorsOf merged) name msg))

/-- The merge loop of `ParallelAgent.run`, folded over the zipped
`(agent, result)` pairs in declaration order. -/
def mergeResults (merged : Ctx) : List (String × Except String Ctx) → Ctx
  | [] => merged
  | (name, .error msg) :: rest => mergeResults (setErrorsEntry merged name msg) rest
  | (_, .ok out) :: rest => mergeResults (ctxUpdate merged out) rest

/-- `ParallelAgent.run`: run every branch on its own snapshot of `ctx`,
then merge outcomes in declaration order starting from `ctx`. -/
def parallelRun (agents : List PAgent) (ctx : Ctx) : Ctx :=
  mergeResults ctx (agents.map (fun a => (a.name, a.run ctx)))

/-- Concatenation, in declaration order, of the successful outputs among
the `(name, result)` pairs. -/
def successOutputs (rs : List (String × Except String Ctx)) : List (String × Val) :=
  match rs with
  | [] => []
  | (_, .error _) :: rest => successOutputs rest
  | (_, .ok out) :: rest => out ++ successOutputs rest

/-- A loop sub-agent: `run` returning the updated context or raising. -/
abbrev SubAgentE := Ctx → Except String Ctx

/-- The inner `for agent in self.sub_agents` sequence of one iteration. -/
def runSubs : List SubAgentE → Ctx → Except String Ctx
  | [], c => .ok c
  | a :: rest, c =>
      match a c with
      | .error e => .error e
      | .ok c1 => runSubs rest c1

/-- One loop iteration: write the 1-based counter, then run the body. -/
def loopStep (subs : List SubAgentE) (iter : Nat) (c : Ctx) : Except String Ctx :=
  runSubs subs (ctxInsert c "loop_iteration" (.vnat (iter + 1)))

/-- The loop's exit test `context.get("loop_complete", False)`. -/
def isLoopComplete (c : Ctx) : Bool :=
  truthy (ctxGetD c "loop_complete" (.vbool false))

/-- The `range` loop of `LoopAgent.run`: `rem` iterations remain, `iter`
of them already ran.  When the range is exhausted the `else` clause sets
`loop_exhausted = True`. -/
def loopGo (subs : List SubAgentE) : Nat → Nat → Ctx → Except String Ctx
  | 0, _, c => .ok (ctxInsert c "loop_exhausted" (.vbool true))
  | rem + 1, iter, c =>
      match loopStep subs iter c with
      | .error e => .error e
      | .ok c1 => if isLoopComplete c1 then .ok c1 else loopGo subs rem (iter + 1) c1

/-- The `setdefault` prologue of `LoopAgent.run`. -/
def loopInit (ctx : Ctx) : Ctx :=
  ctxSetdefault (ctxSetdefault ctx "loop_iteration" (.vnat 0)) "loop_complete" (.vbool false)

/-- `LoopAgent.run` with `max_iterations = M`. -/
def loopRun (subs : List SubAgentE) (M : Nat) (ctx : Ctx) : Except String Ctx :=
  loopGo subs M 0 (loopInit ctx)

/-- The context trajectory of the loop body: `loopTraj subs c0 i` is the
context after `i` completed iterations starting from the initialised
context `c0` (ignoring the break test, which `loopGo` applies). -/
def loopTraj (subs : List SubAgentE) (c0 : Ctx) : Nat → Except String Ctx
  | 0 => .ok c0
  | i + 1 =>
      match loopTraj subs c0 i with
      | .error e => .error e
      | .ok c => loopStep subs i c

/-- A sub-agent leaves the binding of `key` unchanged on success.  The
loop's bookkeeping keys (`loop_iteration`, `loop_exhausted`) are owned by
the combinator; the repository's loop sub-agents (remediator, verifier)
only read them. -/
def PreservesKey (a : SubAgentE) (key : String) : Prop :=
  ∀ c c', a c = .ok c' → ctxLookup c' key = ctxLookup c key

/-- `_ESCALATION_ORDER` (verifier.py lines 21-26). -/
def escalationOrder : List EscalationLevel :=
  [.L1_AUTO, .L2_ONCALL, .L3_SENIOR, .L4_MANAGEMENT]

/-- `_ESCALATION_ORDER.index(current)` (total on genuine enum members). -/
def levelIdx : EscalationLevel → Nat
  | .L1_AUTO => 0
  | .L2_ONCALL => 1
  | .L3_SENIOR => 2
  | .L4_MANAGEMENT => 3

/-- `_next_escalation_level`: `min(current_idx + 1, len(order) - 1)` into
the order.  The `ValueError` fallback to `L2_ONCALL` fires only for
non-enum inputs and is modelled in `nextLevelOfVal`. -/
def nextEscalationLevel (current : EscalationLevel) : EscalationLevel :=
  escalationOrder.getD (min (levelIdx current + 1) (escalationOrder.length - 1)) .L2_ONCALL

/-- `_next_escalation_level(context.get("escalation_level", L1_AUTO))`,
including the `ValueError → L2_ONCALL` fallback for a non-enum value. -/
def nextLevelOfVal : Option Val → EscalationLevel
  | some (.vlevel l) => nextEscalationLevel l
  | some _ => .L2_ONCALL
  | none => nextEscalationLevel .L1_AUTO

/-- The escalation level currently recorded in a context, with the
agent's read default `L1_AUTO`. -/
def levelOf (c : Ctx) : EscalationLevel :=
  match ctxLookup c "escalation_level" with
  | some (.vlevel l) => l
  | _ => .L1_AUTO

/-- `VerificationAgent._heuristic_run` (verifier.py lines 50-117), with
the health-check result abstracted to its `healthy` bit. -/
def verifierRun (healthy : Bool) (c : Ctx) : Ctx :=
  let c1 := ctxInsert c "verification_result" (.vbool healthy)
  if healthy then
    ctxInsert (ctxInsert c1 "loop_complete" (.vbool true)) "needs_escalation" (.vbool false)
  else
    ctxInsert (ctxInsert (ctxInsert c1 "escalation_level"
        (.vlevel (nextLevelOfVal (ctxLookup c1 "escalation_level"))))
      "needs_escalation" (.vbool true)) "loop_complete" (.vbool false)

/-- `INDICATOR_TO_SYMPTOM` (remediator.py lines 28-42). -/
def INDICATOR_TO_SYMPTOM : List (String × String) :=
  [("cpu_critical", "high_cpu"),
   ("memory_critical", "memory_leak"),
   ("extreme_error_rate", "regression_after_deploy"),
   ("latency_degradation", "high_latency"),
   ("connection_pressure", "connection_pool_exhaustion"),
   ("stack_trace_present", "regression_after_deploy"),
   ("error_spike", "regression_after_deploy"),
   ("timeout_pattern", "connection_timeout"),
   ("fatal_log", "memory_leak"),
   ("resource_limit_drift", "memory_leak"),
   ("image_version_mismatch", "regression_after_deploy"),
   ("env_var_drift", "config_drift"),
   ("critical_config_drift", "config_drift")]

/-- The `applicable_symptoms` declarations of `RUNBOOKS`, in registry
(insertion) order (runbooks.py lines 16-196). -/
def RUNBOOK_SYMPTOMS : List (String × List String) :=
  [("restart_service",
    ["memory_leak", "connection_pool_exhaustion", "stale_cache", "thread_pool_exhaustion"]),
   ("scale_up",
    ["high_cpu", "high_latency", "connection_pool_exhaustion", "traffic_spike"]),
   ("rollback_deploy",
    ["regression_after_deploy", "new_error_patterns", "config_drift",
     "performance_degradation"]),
   ("clear_cache",
    ["stale_data", "inconsistent_responses", "serialization_errors"]),
   ("rotate_certs",
    ["certificate_expiry", "tls_handshake_failure", "ssl_error"]),
   ("drain_connections",
    ["connection_pool_exhaustion", "connection_timeout", "stale_connections"])]

/-- `select_runbook_for_symptom` (runbooks.py lines 220-228): first
runbook, in registry order, declaring the symptom applicable. -/
def select_runbook_for_symptom (symptom : String) : Option String :=
  (RUNBOOK_SYMPTOMS.find? (fun rb => rb.2.contains symptom)).map (fun rb => rb.1)

/-- The symptom set collected from the indicators
(`INDICATOR_TO_SYMPTOM.get(indicator)` for each, skipping misses). -/
def symptomsOf (indicators : List String) : List String :=
  (indicators.filterMap (fun ind => emapLookup INDICATOR_TO_SYMPTOM ind)).dedup

/-- `action_priority_by_iteration` with `dict.get`'s
`["restart_service"]` default (remediator.py lines 142-148). -/
def action_priority_by_iteration (iteration : Nat) : List String :=
  if iteration = 1 then ["restart_service", "clear_cache", "drain_connections"]
  else if iteration = 2 then ["scale_up", "drain_connections", "restart_service"]
  else if iteration = 3 then ["rollback_deploy", "scale_up", "rotate_certs"]
  else ["restart_service"]

/-- The first symptom whose matched runbook action is a candidate
(the `for symptom in symptoms` loop of `_select_action`). -/
def matchedSymptomAction (symptoms candidates : List String) : Option String :=
  match symptoms with
  | [] => none
  | s :: rest =>
      match select_runbook_for_symptom s with
      | some a =>
          if candidates.contains a then some a else matchedSymptomAction rest candidates
      | none => matchedSymptomAction rest candidates

/-- `_select_action` (remediator.py lines 121-164). -/
def selectAction (indicators : List String) (iteration : Nat) : String :=
  let symptoms := symptomsOf indicators
  let candidates := action_priority_by_iteration iteration
  match matchedSymptomAction symptoms candidates with
  | some a => a
  | none =>
      if symptoms.contains "certificate_expiry" || symptoms.contains "tls_handshake_failure" then
        "rotate_certs"
      else if symptoms.contains "config_drift" && decide (2 ≤ iteration) then
        "rollback_deploy"
      else candidates.headD "restart_service"

/-- An emitted event, identified by id and event-type tag (payload,
message and timestamp do not affect the claimed properties). -/
structure Event where
  eid : Nat
  etype : String
deriving DecidableEq, Repr

/-- `_TERMINAL_EVENTS` (streaming.py line 42). -/
def isTerminalEvent (t : String) : Bool :=
  t == "resolved" || t == "human_takeover" || t == "error"

/-- Where a subscriber's `subscribe` generator is suspended: replaying
history at index `idx`, in the live `while` loop, or ended (deregistered
by the `finally` block). -/
inductive SubPhase where
  | replay : Nat → SubPhase
  | live : SubPhase
  | ended : SubPhase
deriving DecidableEq, Repr

/-- One subscriber: its queue (`none` is the close sentinel), its
generator phase, and the events yielded to it so far. -/
structure Subscriber where
  queue : List (Option Event)
  phase : SubPhase
  delivered : List Event
deriving DecidableEq, Repr

/-- `max_queue_size` default (streaming.py line 52). -/
def maxQueueSize : Nat := 256

/-- `queue.put_nowait(event)` during `emit`: dropped when the queue is
full; an ended subscriber's queue is already deregistered. -/
def pushToSub (s : Subscriber) (e : Event) : Subscriber :=
  match s.phase with
  | .ended => s
  | _ => if s.queue.length < maxQueueSize then { s with queue := s.queue ++ [some e] } else s

/-- The per-session bus state: append-only history plus subscribers. -/
structure Bus where
  history : List Event
  subs : List Subscriber
deriving DecidableEq, Repr

/-- `emit` (streaming.py lines 61-101): append to history, fan out. -/
def emitEvent (b : Bus) (e : Event) : Bus :=
  { history := b.history ++ [e], subs := b.subs.map (fun s => pushToSub s e) }

/-- Queue registration at the top of `subscribe` (line 114-117): the
fresh queue is registered before any history is replayed. -/
def subscribeBus (b : Bus) : Bus :=
  { b with subs := b.subs ++ [⟨[], .replay 0, []⟩] }

/-- One consumer step of a `subscribe` generator: the next yield of the
replay loop (which re-reads the live history list), the replay→live
transition, or one `queue.get()` of the live loop.  The live loop ends
on the sentinel or right after yielding a terminal event; the replay
loop yields unconditionally.  A subscriber blocked on an empty queue
makes no progress. -/
def stepOne (history : List Event) (s : Subscriber) : Subscriber :=
  match s.phase with
  | .replay idx =>
      match history.get? idx with
      | some e => { s with delivered := s.delivered ++ [e], phase := .replay (idx + 1) }
      | none => { s with phase := .live }
  | .live =>
      match s.queue with
      | [] => s
      | none :: rest => { s with queue := rest, phase := .ended }
      | some e :: rest =>
          { s with queue := rest, delivered := s.delivered ++ [e],
                   phase := if isTerminalEvent e.etype then .ended else .live }
  | .ended => s

/-- Advance subscriber `i` by one consumer step. -/
def stepSub (b : Bus) (i : Nat) : Bus :=
  match b.subs.get? i with
  | none => b
  | some s => { b with subs := b.subs.set i (stepOne b.history s) }

/-- One interleaving action of the cooperative scheduler. -/
inductive BusAction where
  | emit : Event → BusAction
  | subscribe : BusAction
  | step : Nat → BusAction
deriving DecidableEq, Repr

def applyAction (b : Bus) : BusAction → Bus
  | .emit e => emitEvent b e
  | .subscribe => subscribeBus b
  | .step i => stepSub b i

def emptyBus : Bus := ⟨[], []⟩

/-- Run a whole interleaving from the fresh per-session state. -/
def runTrace (acts : List BusAction) : Bus := acts.foldl applyAction emptyBus

/-- `n` consecutive consumer steps of subscriber 0. -/
def stepsN (n : Nat) : List BusAction := List.replicate n (.step 0)

/-- Number of accumulated `remediation_actions` (pipeline.py line 240),
driving one `remediation_attempted` event per action. -/
def actionCount (c : Ctx) : Nat :=
  match ctxLookup c "remediation_actions" with
  | some (.vacts l) => l.length
  | _ => 0

/-- The three fallible phases wired by the orchestrator. -/
structure PipelinePhases where
  triage : Ctx → Except String Ctx
  diagnostics : Ctx → Except String Ctx
  escalation : Ctx → Except String Ctx

/-- `run_incident_pipeline`: final context and emitted event types. -/
def runPipeline (ph : PipelinePhases) (ctx0 : Ctx) : Ctx × List String :=
  let evs0 : List String := ["received", "enriching"]
  match ph.triage ctx0 with
  | .error e => (ctxInsert ctx0 "error" (.vstr e), evs0 ++ ["error"])
  | .ok c1 =>
      let evs1 := evs0 ++ ["enriched", "triaging", "triaged",
                           "diagnosing_logs", "diagnosing_metrics", "diagnosing_config"]
      match ph.diagnostics c1 with
      | .error e => (ctxInsert c1 "error" (.vstr e), evs1 ++ ["error"])
      | .ok c2 =>
          let evs2 := evs1 ++ ["diagnostics_complete", "remediating"]
          match ph.escalation c2 with
          | .error e => (ctxInsert c2 "error" (.vstr e), evs2 ++ ["error"])
          | .ok c3 =>
              let evs3 := evs2 ++ List.replicate (actionCount c3) "remediation_attempted"
                               ++ ["verifying", "verification_result"]
              if isLoopComplete c3 then
                (ctxInsert c3 "report" (.vstr "incident_report"), evs3 ++ ["resolved"])
              else if truthy (ctxGetD c3 "loop_exhausted" (.vbool false)) then
                (ctxInsert c3 "report" (.vstr "incident_report"),
                 evs3 ++ ["escalating", "human_takeover"])
              else (c3, evs3)

/-- The heap: cells addressed by list index; a cell is a mutable list. -/
abbrev Store := List (List Nat)

/-- The shallow layer of a context: key → cell-address bindings.
`dict.copy()` duplicates only this table. -/
abbrev HCtx := List (String × Nat)

/-- A branch over the heap model: gets its own binding-table snapshot and
the shared store, returns its table and the store it leaves behind. -/
abbrev HAgent := HCtx → Store → HCtx × Store

def hLookup : HCtx → String → Option Nat
  | [], _ => none
  | (k, v) :: rest, key => if k = key then some v else hLookup rest key

def hInsert : HCtx → String → Nat → HCtx
  | [], key, v => [(key, v)]
  | (k, w) :: rest, key, v =>
      if k = key then (key, v) :: rest else (k, w) :: hInsert rest key v

/-- `merged.update(result)` on the binding tables. -/
def hUpdate (c other : HCtx) : HCtx :=
  other.foldl (fun acc kv => hInsert acc kv.1 kv.2) c

/-- Branch execution: every branch receives the same table snapshot
`ctx`; the store is shared and threaded through in declaration order. -/
def runBranchesSeq : List HAgent → HCtx → Store → List HCtx × Store
  | [], _, st => ([], st)
  | a :: rest, ctx, st =>
      let r1 := a ctx st
      let r2 := runBranchesSeq rest ctx r1.2
      (r1.1 :: r2.1, r2.2)

/-- `ParallelAgent.run` on the heap model: all branches complete, then
the merge folds their tables into a copy of the input table. -/
def parallelRunH (agents : List HAgent) (ctx : HCtx) (st : Store) : HCtx × Store :=
  let r := runBranchesSeq agents ctx st
  (r.1.foldl hUpdate ctx, r.2)

/-- Branch used by the aliasing counterexample: overwrites, in place, the
cell its snapshot binds under `"findings"` (e.g. `ctx["findings"].append`
style mutation of a nested list), without rebinding any key. -/
def cexMutator : HAgent := fun c st =>
  (c, match hLookup c "findings" with
      | some a => st.set a [7]
      | none => st)

/-- Sibling branch used by the aliasing counterexample: reads the
`"findings"` cell through its own snapshot binding and records the value
it saw in a fresh cell bound under `"saw"`. -/
def cexObserver : HAgent := fun c st =>
  (hInsert c "saw" st.length,
   st ++ [match hLookup c "findings" with
          | some a => st.getD a []
          | none => []])

/-- Branch that only rebinds a key in its own table snapshot and leaves
the store untouched. -/
def cexRebinder : HAgent := fun c st => (hInsert c "x" 5, st)

/-- Identity agent, used to exercise the combinators on concrete runs. -/
def idAgent : SubAgentE := fun c => .ok c

/-- Loop sub-agent that reads the iteration counter the combinator wrote
and completes the loop on its second run, like a verifier that passes on
the second attempt. -/
def completeOnSecond : SubAgentE := fun c =>
  .ok (if ctxGetD c "loop_iteration" (.vnat 0) = .vnat 2 then
        ctxInsert c "loop_complete" (.vbool true)
      else c)

/-- Concrete parallel branches for witnesses: a succeeding log branch, a
failing metrics branch, a succeeding config branch. -/
def wLogs : PAgent := ⟨"log_analyzer", fun _ => .ok [("log_diagnostics", .vstr "ok")]⟩

def wMetrics : PAgent := ⟨"metrics_checker", fun _ => .error "boom"⟩

def wConfig : PAgent := ⟨"config_auditor", fun _ => .ok [("config_diagnostics", .vnat 2)]⟩

/-- Pipeline phase functions used by the orchestrator witness: trivial
triage and diagnostics, and a zero-iteration escalation loop. -/
def wPhases : PipelinePhases := ⟨fun c => .ok c, fun c => .ok c, fun c => loopRun [] 0 c⟩

/-! ## Claim theorems -/

/-! ## Lemmas and claim theorems -/

theorem ctxLookup_ctxInsert (c : Ctx) (k key : String) (v : Val) :
    ctxLookup (ctxInsert c k v) key = if k = key then some v else ctxLookup c key := by
  induction c with
  | nil =>
    simp [ctxInsert, ctxLookup]
  | cons kv rest ih =>
    obtain ⟨k', w⟩ := kv
    by_cases h1 : k' = k
    · subst h1
      by_cases h2 : k' = key
      · subst h2
        simp [ctxInsert, ctxLookup]
      · simp [ctxInsert, ctxLookup, h2]
    · by_cases h2 : k' = key
      · subst h2
        simp [ctxInsert, ctxLookup, h1, Ne.symm h1]
      · simp [ctxInsert, ctxLookup, h1, h2, ih]

theorem ctxLookup_ctxInsert_self (c : Ctx) (k : String) (v : Val) :
    ctxLookup (ctxInsert c k v) k = some v := by
  simp [ctxLookup_ctxInsert]

theorem ctxLookup_ctxInsert_ne (c : Ctx) (k key : String) (v : Val) (h : k ≠ key) :
    ctxLookup (ctxInsert c k v) key = ctxLookup c key := by
  simp [ctxLookup_ctxInsert, h]

theorem ctxLookup_ctxSetdefault (c : Ctx) (k key : String) (v : Val) :
    ctxLookup (ctxSetdefault c k v) key =
      if k = key then some ((ctxLookup c k).getD v) else ctxLookup c key := by
  unfold ctxSetdefault
  cases h : ctxLookup c k with
  | none =>
    by_cases hk : k = key
    · subst hk
      simp [ctxLookup_ctxInsert, h]
    · simp [ctxLookup_ctxInsert, hk]
  | some w =>
    by_cases hk : k = key
    · subst hk
      simp [h]
    · simp [hk]

theorem ctxLookup_ctxUpdate (c : Ctx) (other : List (String × Val)) (key : String) :
    ctxLookup (ctxUpdate c other) key =
      match assocLast other key with
      | some v => some v
      | none => ctxLookup c key := by
  induction other generalizing c with
  | nil => simp [ctxUpdate, assocLast]
  | cons kv rest ih =>
    show ctxLookup (ctxUpdate (ctxInsert c kv.1 kv.2) rest) key = _
    rw [ih]
    cases h : assocLast rest key with
    | some v => simp [assocLast, h]
    | none =>
      by_cases hk : kv.1 = key
      · simp [assocLast, h, hk, ctxLookup_ctxInsert]
      · simp [assocLast, h, hk, ctxLookup_ctxInsert]

theorem assocLast_append (l1 l2 : List (String × Val)) (key : String) :
    assocLast (l1 ++ l2) key =
      match assocLast l2 key with
      | some v => some v
      | none => assocLast l1 key := by
  induction l1 with
  | nil =>
    cases h : assocLast l2 key <;> simp [assocLast, h]
  | cons kv rest ih =>
    cases h : assocLast l2 key <;> simp [assocLast, ih, h]

/-! ### Parallel combinator (`ParallelAgent.run`, agents/base.py lines 140-165)

Each sub-agent receives a snapshot of the input context and either returns
an output context or raises; `asyncio.gather(..., return_exceptions=True)`
collects every branch outcome, so the combinator itself is a total
function of the branch outcomes.  The merge starts from a copy of the
input context and walks the agents in declaration order: a failure is
recorded under `errors[agent.name]` via `setdefault`, a success is merged
with `dict.update`. -/

theorem emapLookup_emapInsert_self (m : List (String × String)) (k v : String) :
    emapLookup (emapInsert m k v) k = some v := by
  induction m with
  | nil => simp [emapInsert, emapLookup]
  | cons kv rest ih =>
    by_cases h : kv.1 = k
    · simp [emapInsert, emapLookup, h]
    · simp [emapInsert, emapLookup, h, ih]

theorem ctxLookup_setErrorsEntry (merged : Ctx) (name msg : String) (key : String) :
    ctxLookup (setErrorsEntry merged name msg) key =
      if "errors" = key then some (.vemap (emapInsert (errorsOf merged) name msg))
      else ctxLookup merged key := by
  unfold setErrorsEntry
  exact ctxLookup_ctxInsert ..

/-- Merging never fails and, away from the `"errors"` key, behaves as the
declaration-order fold of `dict.update` over the successful outputs. -/
theorem ctxLookup_mergeResults_ne (merged : Ctx)
    (rs : List (String × Except String Ctx)) (key : String) (hkey : key ≠ "errors") :
    ctxLookup (mergeResults merged rs) key =
      match assocLast (successOutputs rs) key with
      | some v => some v
      | none => ctxLookup merged key := by
  induction rs generalizing merged with
  | nil => simp [mergeResults, successOutputs, assocLast]
  | cons nr rest ih =>
    obtain ⟨name, r⟩ := nr
    cases r with
    | error msg =>
      show ctxLookup (mergeResults (setErrorsEntry merged name msg) rest) key = _
      rw [ih]
      cases h : assocLast (successOutputs rest) key with
      | some v => simp [successOutputs, h]
      | none =>
        simp [successOutputs, h, ctxLookup_setErrorsEntry, Ne.symm hkey]
    | ok out =>
      show ctxLookup (mergeResults (ctxUpdate merged out) rest) key = _
      rw [ih]
      show _ = (match assocLast (out ++ successOutputs rest) key with
                | some v => some v
                | none => ctxLookup merged key)
      rw [assocLast_append]
      cases h : assocLast (successOutputs rest) key with
      | some v => simp
      | none =>
        cases h2 : assocLast out key with
        | some v => simp [ctxLookup_ctxUpdate, h2]
        | none => simp [ctxLookup_ctxUpdate, h2]

/-- When every successful output avoids the `"errors"` key, the final
errors map is the fold of the failures over the initial errors map. -/
theorem errorsOf_mergeResults (merged : Ctx)
    (rs : List (String × Except String Ctx))
    (hok : ∀ n out, (n, Except.ok out) ∈ rs → assocLast out "errors" = none) :
    errorsOf (mergeResults merged rs) =
      rs.foldl (fun em nr =>
        match nr.2 with
        | .error msg => emapInsert em nr.1 msg
        | .ok _ => em) (errorsOf merged) := by
  induction rs generalizing merged with
  | nil => simp [mergeResults]
  | cons nr rest ih =>
    obtain ⟨name, r⟩ := nr
    cases r with
    | error msg =>
      show errorsOf (mergeResults (setErrorsEntry merged name msg) rest) = _
      rw [ih _ (fun n out hmem => hok n out (List.mem_cons_of_mem _ hmem))]
      simp only [List.foldl_cons]
      congr 1
      simp [errorsOf, setErrorsEntry, ctxLookup_ctxInsert_self]
    | ok out =>
      show errorsOf (mergeResults (ctxUpdate merged out) rest) = _
      rw [ih _ (fun n o hmem => hok n o (List.mem_cons_of_mem _ hmem))]
      simp only [List.foldl_cons]
      congr 1
      unfold errorsOf
      rw [ctxLookup_ctxUpdate, hok name out (List.mem_cons_self _ _)]

/-! ### Loop combinator (`LoopAgent.run`, agents/base.py lines 188-233)

On entry the loop copies the context and `setdefault`s
`loop_iteration = 0` and `loop_complete = False`.  Each pass of Python's
`for iteration in range(max_iterations)` writes
`loop_iteration = iteration + 1`, runs the sub-agent sequence, and
breaks when `context.get("loop_complete", False)` is truthy; the
`for ... else` clause sets `loop_exhausted = True` when the range is
exhausted without a break (including `max_iterations = 0`).  A sub-agent
exception propagates out of the loop unchanged. -/

theorem runSubs_preserves {subs : List SubAgentE} {key : String}
    (h : ∀ a ∈ subs, PreservesKey a key) {c c' : Ctx}
    (hrun : runSubs subs c = .ok c') : ctxLookup c' key = ctxLookup c key := by
  induction subs generalizing c with
  | nil =>
    simp [runSubs] at hrun
    subst hrun
    rfl
  | cons a rest ih =>
    unfold runSubs at hrun
    cases ha : a c with
    | error e => rw [ha] at hrun; exact absurd hrun (by simp)
    | ok c1 =>
      rw [ha] at hrun
      have h1 := h a (List.mem_cons_self _ _) c c1 ha
      have h2 := ih (fun b hb => h b (List.mem_cons_of_mem _ hb)) hrun
      rw [h2, h1]

theorem loopStep_counter {subs : List SubAgentE}
    (h : ∀ a ∈ subs, PreservesKey a "loop_iteration") {iter : Nat} {c c' : Ctx}
    (hstep : loopStep subs iter c = .ok c') :
    ctxLookup c' "loop_iteration" = some (.vnat (iter + 1)) := by
  unfold loopStep at hstep
  rw [runSubs_preserves h hstep, ctxLookup_ctxInsert_self]

theorem loopStep_exhausted {subs : List SubAgentE}
    (h : ∀ a ∈ subs, PreservesKey a "loop_exhausted") {iter : Nat} {c c' : Ctx}
    (hstep : loopStep subs iter c = .ok c') :
    ctxLookup c' "loop_exhausted" = ctxLookup c "loop_exhausted" := by
  unfold loopStep at hstep
  rw [runSubs_preserves h hstep, ctxLookup_ctxInsert_ne]
  decide

theorem loopTraj_back {subs : List SubAgentE} {c0 : Ctx} {j : Nat} {c : Ctx}
    (h : loopTraj subs c0 j = .ok c) :
    ∀ i, i ≤ j → ∃ ci, loopTraj subs c0 i = .ok ci := by
  induction j generalizing c with
  | zero =>
    intro i hi
    interval_cases i
    exact ⟨c, h⟩
  | succ j ih =>
    intro i hi
    rcases Nat.lt_or_ge i (j + 1) with hlt | hge
    · unfold loopTraj at h
      cases hj : loopTraj subs c0 j with
      | error e => rw [hj] at h; exact absurd h (by simp)
      | ok cj => exact ih hj i (Nat.lt_succ_iff.mp hlt)
    · have : i = j + 1 := Nat.le_antisymm hi hge
      subst this
      exact ⟨c, h⟩

theorem loopTraj_exhausted {subs : List SubAgentE}
    (h : ∀ a ∈ subs, PreservesKey a "loop_exhausted") {c0 : Ctx} {i : Nat} {ci : Ctx}
    (hi : loopTraj subs c0 i = .ok ci) :
    ctxLookup ci "loop_exhausted" = ctxLookup c0 "loop_exhausted" := by
  induction i generalizing ci with
  | zero =>
    simp [loopTraj] at hi
    subst hi
    rfl
  | succ i ih =>
    unfold loopTraj at hi
    cases hj : loopTraj subs c0 i with
    | error e => rw [hj] at hi; exact absurd hi (by simp)
    | ok cj =>
      rw [hj] at hi
      rw [loopStep_exhausted h hi, ih hj]

/-- Early-exit run of the `range` loop: if the body completes the flag at
absolute iteration `k` and at no earlier one, the remaining `rem`
iterations starting at `iter < k ≤ iter + rem` stop exactly at `k` with
the trajectory's context. -/
theorem loopGo_early {subs : List SubAgentE} {c0 : Ctx} {k : Nat} {ck : Ctx}
    (hk : loopTraj subs c0 k = .ok ck) (hck : isLoopComplete ck = true)
    (hmid : ∀ i ci, 1 ≤ i → i < k → loopTraj subs c0 i = .ok ci →
      isLoopComplete ci = false) :
    ∀ rem iter c, iter < k → k ≤ iter + rem → loopTraj subs c0 iter = .ok c →
      loopGo subs rem iter c = .ok ck := by
  intro rem
  induction rem with
  | zero => omega
  | succ rem ih =>
    intro iter c hlt hle hc
    have hnext : loopTraj subs c0 (iter + 1) = loopStep subs iter c := by
      unfold loopTraj
      rw [hc]
    rcases Nat.lt_or_ge (iter + 1) k with hlt1 | hge1
    · obtain ⟨c1, hc1⟩ := loopTraj_back hk (iter + 1) (Nat.le_of_lt hlt1)
      have hstep : loopStep subs iter c = .ok c1 := by rw [← hnext, hc1]
      have hnc : isLoopComplete c1 = false :=
        hmid (iter + 1) c1 (Nat.le_add_left 1 iter) hlt1 hc1
      unfold loopGo
      rw [hstep]
      simp only [hnc, if_false, Bool.false_eq_true]
      exact ih (iter + 1) c1 hlt1 (by omega) hc1
    · have hkeq : k = iter + 1 := by omega
      subst hkeq
      have hstep : loopStep subs iter c = .ok ck := by rw [← hnext, hk]
      unfold loopGo
      rw [hstep]
      simp [hck]

/-- Exhaustion run of the `range` loop: if no iteration up to
`iter + rem` completes the flag and every body run succeeds, the loop
runs all remaining iterations and sets `loop_exhausted = True` on the
final trajectory context. -/
theorem loopGo_exhaust {subs : List SubAgentE} {c0 : Ctx} :
    ∀ rem iter c cend,
      (∀ i ci, 1 ≤ i → i ≤ iter + rem → loopTraj subs c0 i = .ok ci →
        isLoopComplete ci = false) →
      loopTraj subs c0 iter = .ok c →
      loopTraj subs c0 (iter + rem) = .ok cend →
      loopGo subs rem iter c = .ok (ctxInsert cend "loop_exhausted" (.vbool true)) := by
  intro rem
  induction rem with
  | zero =>
    intro iter c cend _ hc hcend
    rw [Nat.add_zero] at hcend
    rw [hc] at hcend
    simp only [Except.ok.injEq] at hcend
    subst hcend
    rfl
  | succ rem ih =>
    intro iter c cend hmid hc hcend
    have hnext : loopTraj subs c0 (iter + 1) = loopStep subs iter c := by
      unfold loopTraj
      rw [hc]
    obtain ⟨c1, hc1⟩ := loopTraj_back hcend (iter + 1) (by omega)
    have hstep : loopStep subs iter c = .ok c1 := by rw [← hnext, hc1]
    have hnc : isLoopComplete c1 = false :=
      hmid (iter + 1) c1 (Nat.le_add_left 1 iter) (by omega) hc1
    unfold loopGo
    rw [hstep]
    simp only [hnc, if_false, Bool.false_eq_true]
    have harith : iter + 1 + rem = iter + (rem + 1) := by omega
    exact ih (iter + 1) c1 cend
      (fun i ci h1 h2 hi => hmid i ci h1 (by omega) hi)
      hc1 (by rw [harith]; exact hcend)

theorem loopTraj_counter {subs : List SubAgentE}
    (h : ∀ a ∈ subs, PreservesKey a "loop_iteration") {c0 : Ctx} {k : Nat} {ck : Ctx}
    (hk : loopTraj subs c0 (k + 1) = .ok ck) :
    ctxLookup ck "loop_iteration" = some (.vnat (k + 1)) := by
  unfold loopTraj at hk
  cases hj : loopTraj subs c0 k with
  | error e => rw [hj] at hk; exact absurd hk (by simp)
  | ok cj =>
    rw [hj] at hk
    exact loopStep_counter h hk

/-- Safety invariant of the `range` loop: starting from a context whose
counter reads `iter`, whose `loop_exhausted` key is absent and whose
completion flag is falsy, any successful run ends with the counter at
most `iter + rem` and never with both flags truthy. -/
theorem loopGo_safety {subs : List SubAgentE}
    (hfr1 : ∀ a ∈ subs, PreservesKey a "loop_iteration")
    (hfr2 : ∀ a ∈ subs, PreservesKey a "loop_exhausted") :
    ∀ rem iter c cfin,
      ctxLookup c "loop_iteration" = some (.vnat iter) →
      ctxLookup c "loop_exhausted" = none →
      isLoopComplete c = false →
      loopGo subs rem iter c = .ok cfin →
      (∃ n, n ≤ iter + rem ∧ ctxLookup cfin "loop_iteration" = some (.vnat n)) ∧
      ¬(isLoopComplete cfin = true ∧
        truthy (ctxGetD cfin "loop_exhausted" (.vbool false)) = true) := by
  intro rem
  induction rem with
  | zero =>
    intro iter c cfin hiter hexh hcomp hrun
    simp only [loopGo, Except.ok.injEq] at hrun
    subst hrun
    constructor
    · exact ⟨iter, by omega, by rw [ctxLookup_ctxInsert_ne _ _ _ _ (by decide), hiter]⟩
    · intro ⟨h1, _⟩
      have : isLoopComplete (ctxInsert c "loop_exhausted" (.vbool true)) = isLoopComplete c := by
        unfold isLoopComplete ctxGetD
        rw [ctxLookup_ctxInsert_ne _ _ _ _ (by decide)]
      rw [this, hcomp] at h1
      exact absurd h1 (by simp)
  | succ rem ih =>
    intro iter c cfin hiter hexh hcomp hrun
    unfold loopGo at hrun
    cases hstep : loopStep subs iter c with
    | error e => rw [hstep] at hrun; exact absurd hrun (by simp)
    | ok c1 =>
      rw [hstep] at hrun
      have hc1iter : ctxLookup c1 "loop_iteration" = some (.vnat (iter + 1)) :=
        loopStep_counter hfr1 hstep
      have hc1exh : ctxLookup c1 "loop_exhausted" = none := by
        rw [loopStep_exhausted hfr2 hstep, hexh]
      by_cases hcm : isLoopComplete c1 = true
      · simp only [hcm, if_true] at hrun
        simp only [Except.ok.injEq] at hrun
        subst hrun
        constructor
        · exact ⟨iter + 1, by omega, hc1iter⟩
        · intro ⟨_, h2⟩
          unfold ctxGetD at h2
          rw [hc1exh] at h2
          exact absurd h2 (by simp [truthy])
      · simp only [hcm, if_false, Bool.false_eq_true] at hrun
        have := ih (iter + 1) c1 cfin hc1iter hc1exh (Bool.not_eq_true _ ▸ hcm) hrun
        obtain ⟨⟨n, hn, hlook⟩, hflags⟩ := this
        exact ⟨⟨n, by omega, hlook⟩, hflags⟩

theorem loopGo_complete_or_exhausted (subs : List SubAgentE) :
    ∀ rem iter c cfin, loopGo subs rem iter c = .ok cfin →
      isLoopComplete cfin = true ∨
      truthy (ctxGetD cfin "loop_exhausted" (.vbool false)) = true := by
  intro rem
  induction rem with
  | zero =>
    intro iter c cfin h
    simp only [loopGo, Except.ok.injEq] at h
    subst h
    right
    unfold ctxGetD
    rw [ctxLookup_ctxInsert_self]
    rfl
  | succ rem ih =>
    intro iter c cfin h
    unfold loopGo at h
    cases hstep : loopStep subs iter c with
    | error e => rw [hstep] at h; exact absurd h (by simp)
    | ok c1 =>
      rw [hstep] at h
      by_cases hcm : isLoopComplete c1 = true
      · simp only [hcm, if_true, Except.ok.injEq] at h
        subst h
        exact Or.inl hcm
      · simp only [hcm, if_false, Bool.false_eq_true] at h
        exact ih (iter + 1) c1 cfin h

/-- Any successful `LoopAgent.run` returns a context with the completion
flag truthy (break path) or `loop_exhausted` truthy (`for`/`else` path). -/
theorem loopRun_complete_or_exhausted (subs : List SubAgentE) (M : Nat) (ctx : Ctx)
    (cfin : Ctx) (h : loopRun subs M ctx = .ok cfin) :
    isLoopComplete cfin = true ∨
    truthy (ctxGetD cfin "loop_exhausted" (.vbool false)) = true :=
  loopGo_complete_or_exhausted subs M 0 (loopInit ctx) cfin h

theorem ctxLookup_loopInit (ctx : Ctx) (key : String) (h1 : key ≠ "loop_iteration")
    (h2 : key ≠ "loop_complete") :
    ctxLookup (loopInit ctx) key = ctxLookup ctx key := by
  unfold loopInit
  rw [ctxLookup_ctxSetdefault, if_neg (Ne.symm h2), ctxLookup_ctxSetdefault,
    if_neg (Ne.symm h1)]

theorem ctxLookup_loopInit_counter (ctx : Ctx) (h : ctxLookup ctx "loop_iteration" = none) :
    ctxLookup (loopInit ctx) "loop_iteration" = some (.vnat 0) := by
  unfold loopInit
  rw [ctxLookup_ctxSetdefault]
  simp [ctxLookup_ctxSetdefault, h]

theorem isLoopComplete_loopInit (ctx : Ctx) :
    isLoopComplete (loopInit ctx) = isLoopComplete ctx := by
  unfold isLoopComplete ctxGetD loopInit
  rw [ctxLookup_ctxSetdefault]
  simp only [if_pos rfl]
  rw [ctxLookup_ctxSetdefault]
  cases h : ctxLookup ctx "loop_complete" with
  | none => simp [h, truthy]
  | some v => simp [h]

/-! ### Verification agent (`agents/verifier.py`)

`VerificationAgent._heuristic_run` stores the health-check outcome, and
either marks the loop complete (healthy) or advances the escalation
level via `_next_escalation_level` (unhealthy).  The health-check
collaborator is abstracted to its `healthy` boolean, which is all the
agent inspects for the claimed behaviour. -/

theorem verifierRun_healthy_level (c : Ctx) :
    ctxLookup (verifierRun true c) "escalation_level" = ctxLookup c "escalation_level" := by
  unfold verifierRun
  rw [if_pos rfl]
  rw [ctxLookup_ctxInsert_ne _ _ _ _ (by decide), ctxLookup_ctxInsert_ne _ _ _ _ (by decide),
    ctxLookup_ctxInsert_ne _ _ _ _ (by decide)]

theorem verifierRun_unhealthy_level (c : Ctx) :
    ctxLookup (verifierRun false c) "escalation_level" =
      some (.vlevel (nextLevelOfVal (ctxLookup c "escalation_level"))) := by
  unfold verifierRun
  rw [if_neg Bool.false_ne_true]
  rw [ctxLookup_ctxInsert_ne _ _ _ _ (by decide), ctxLookup_ctxInsert_ne _ _ _ _ (by decide),
    ctxLookup_ctxInsert_self, ctxLookup_ctxInsert_ne _ _ _ _ (by decide)]

/-- One verification never lowers the recorded escalation level. -/
theorem verifierRun_level_mono (healthy : Bool) (c : Ctx) :
    levelIdx (levelOf c) ≤ levelIdx (levelOf (verifierRun healthy c)) := by
  cases healthy with
  | true =>
    unfold levelOf
    rw [verifierRun_healthy_level]
  | false =>
    unfold levelOf
    rw [verifierRun_unhealthy_level]
    cases h : ctxLookup c "escalation_level" with
    | none => simp [nextLevelOfVal, nextEscalationLevel, escalationOrder, levelIdx]
    | some v =>
      cases v with
      | vlevel l => cases l <;> simp [nextLevelOfVal, nextEscalationLevel, escalationOrder, levelIdx]
      | vbool b => simp [nextLevelOfVal, levelIdx]
      | vnat n => simp [nextLevelOfVal, levelIdx]
      | vstr s => simp [nextLevelOfVal, levelIdx]
      | vemap m => simp [nextLevelOfVal, levelIdx]
      | vacts l => simp [nextLevelOfVal, levelIdx]

/-! ### Remediation action selection (`agents/remediator.py`, `tools/runbooks.py`)

`_select_action` maps diagnostic severity indicators to symptoms through
`INDICATOR_TO_SYMPTOM`, picks the candidate list keyed by the current
iteration from `action_priority_by_iteration` (any key other than 1, 2, 3
falls back to `["restart_service"]` via `dict.get`), and returns the first
symptom-matched runbook action inside the candidates, else one of two
overrides (`rotate_certs` for certificate/TLS symptoms, `rollback_deploy`
for `config_drift` on iteration ≥ 2), else the first candidate.  Python
iterates `symptoms` as a set in unspecified order; the embedding keeps a
deduplicated list, and every stated property depends only on membership. -/

theorem matchedSymptomAction_mem {symptoms candidates : List String} {a : String}
    (h : matchedSymptomAction symptoms candidates = some a) : a ∈ candidates := by
  induction symptoms with
  | nil => simp [matchedSymptomAction] at h
  | cons s rest ih =>
    unfold matchedSymptomAction at h
    cases hs : select_runbook_for_symptom s with
    | none => rw [hs] at h; exact ih h
    | some b =>
      rw [hs] at h
      by_cases hc : candidates.contains b = true
      · simp only [hc, if_true, Option.some.injEq] at h
        subst h
        exact List.mem_of_elem_eq_true hc
      · simp only [hc, if_false, Bool.false_eq_true] at h
        exact ih h

theorem emapLookup_mem {m : List (String × String)} {k v : String}
    (h : emapLookup m k = some v) : (k, v) ∈ m := by
  induction m with
  | nil => simp [emapLookup] at h
  | cons kv rest ih =>
    unfold emapLookup at h
    by_cases hk : kv.1 = k
    · obtain ⟨k', v'⟩ := kv
      simp only at hk
      subst hk
      rw [if_pos rfl] at h
      simp only [Option.some.injEq] at h
      subst h
      exact List.mem_cons_self _ _
    · obtain ⟨k', v'⟩ := kv
      simp only at hk
      rw [if_neg hk] at h
      exact List.mem_cons_of_mem _ (ih h)

/-- Every collected symptom lies in the range of `INDICATOR_TO_SYMPTOM`;
in particular the certificate/TLS override symptoms never occur. -/
theorem symptomsOf_range {indicators : List String} {s : String}
    (h : s ∈ symptomsOf indicators) :
    s ∈ ["high_cpu", "memory_leak", "regression_after_deploy", "high_latency",
         "connection_pool_exhaustion", "connection_timeout", "config_drift"] := by
  unfold symptomsOf at h
  rw [List.mem_dedup] at h
  obtain ⟨ind, _, hlook⟩ := List.mem_filterMap.mp h
  have hmem := emapLookup_mem hlook
  revert hmem
  unfold INDICATOR_TO_SYMPTOM
  intro hmem
  simp only [List.mem_cons, List.not_mem_nil, or_false, Prod.mk.injEq] at hmem
  rcases hmem with ⟨_, h2⟩ | ⟨_, h2⟩ | ⟨_, h2⟩ | ⟨_, h2⟩ | ⟨_, h2⟩ | ⟨_, h2⟩ | ⟨_, h2⟩
    | ⟨_, h2⟩ | ⟨_, h2⟩ | ⟨_, h2⟩ | ⟨_, h2⟩ | ⟨_, h2⟩ | ⟨_, h2⟩ <;> subst h2 <;> decide

/-! ### Event bus (`streaming.py`)

`IncidentEventStream` keeps a per-session append-only `_history` and a
list of live subscriber queues.  `emit` appends the event to the history
and `put_nowait`s it to every registered queue, dropping it on
`QueueFull` (queues are bounded by `max_queue_size = 256`).  `subscribe`
registers a fresh queue, then replays the history with a plain `for`
loop over the live list (a Python list iterator picks up appends made
while the consumer is suspended between yields), then enters
`while True: event = await queue.get()`, ending on the `None` sentinel
or after yielding a terminal event; the `finally` block deregisters the
queue.  One session is modelled; a subscriber's interaction is a
small-step system driven by explicit traces of `emit` / `subscribe` /
consumer-step actions, which is how the cooperative asyncio scheduler
interleaves them. -/

theorem emits_no_subs (es : List Event) (h : List Event) :
    List.foldl applyAction ⟨h, []⟩ (es.map .emit) = ⟨h ++ es, []⟩ := by
  induction es generalizing h with
  | nil => simp
  | cons e rest ih =>
    simp only [List.map_cons, List.foldl_cons]
    show List.foldl applyAction ⟨h ++ [e], []⟩ (rest.map .emit) = _
    rw [ih]
    simp

/-- Uninterrupted history replay: starting at index `idx` of a history
of length `idx + n`, the `n` replay yields plus the replay→live
transition deliver exactly `history.drop idx`, in order. -/
theorem replay_uninterrupted (n : Nat) :
    ∀ (h : List Event) (idx : Nat) (q : List (Option Event)) (d : List Event),
      h.length = idx + n →
      List.foldl applyAction ⟨h, [⟨q, .replay idx, d⟩]⟩ (stepsN (n + 1)) =
        ⟨h, [⟨q, .live, d ++ h.drop idx⟩]⟩ := by
  induction n with
  | zero =>
    intro h idx q d hlen
    have hnone : h.get? idx = none := by
      apply List.get?_eq_none.mpr
      omega
    simp only [stepsN, List.replicate, List.foldl_cons, List.foldl_nil]
    show List.foldl applyAction (stepSub ⟨h, [⟨q, .replay idx, d⟩]⟩ 0) [] = _
    simp only [List.foldl_nil]
    unfold stepSub
    simp only [List.get?]
    unfold stepOne
    simp only [hnone]
    rw [List.drop_eq_nil_of_le (by omega)]
    simp
  | succ n ih =>
    intro h idx q d hlen
    have hidx : idx < h.length := by omega
    have hsome : h.get? idx = some (h.get ⟨idx, hidx⟩) := List.get?_eq_get hidx
    have hrep : stepsN (n + 1 + 1) = BusAction.step 0 :: stepsN (n + 1) := rfl
    rw [hrep, List.foldl_cons]
    show List.foldl applyAction (stepSub ⟨h, [⟨q, .replay idx, d⟩]⟩ 0) (stepsN (n + 1)) = _
    unfold stepSub
    simp only [List.get?]
    unfold stepOne
    simp only [hsome]
    show List.foldl applyAction ⟨h, [⟨q, .replay (idx + 1), d ++ [h.get ⟨idx, hidx⟩]⟩]⟩
      (stepsN (n + 1)) = _
    rw [ih h (idx + 1) q (d ++ [h.get ⟨idx, hidx⟩]) (by omega)]
    have : h.drop idx = h.get ⟨idx, hidx⟩ :: h.drop (idx + 1) := by
      rw [List.get_eq_getElem]
      exact List.drop_eq_getElem_cons hidx
    rw [this]
    simp

/-- Emissions reaching a single live subscriber whose queue has room:
each event is appended to the history and to the queue. -/
theorem emits_to_live (es : List Event) :
    ∀ (h : List Event) (q : List (Option Event)) (d : List Event),
      q.length + es.length ≤ maxQueueSize →
      List.foldl applyAction ⟨h, [⟨q, .live, d⟩]⟩ (es.map .emit) =
        ⟨h ++ es, [⟨q ++ es.map some, .live, d⟩]⟩ := by
  induction es with
  | nil => intro h q d _; simp
  | cons e rest ih =>
    intro h q d hcap
    simp only [List.map_cons, List.foldl_cons]
    show List.foldl applyAction (emitEvent ⟨h, [⟨q, .live, d⟩]⟩ e) (rest.map .emit) = _
    unfold emitEvent pushToSub
    simp only [List.map]
    rw [if_pos (by simp at hcap ⊢; omega)]
    show List.foldl applyAction ⟨h ++ [e], [⟨q ++ [some e], .live, d⟩]⟩ (rest.map .emit) = _
    rw [ih (h ++ [e]) (q ++ [some e]) d (by simp at hcap ⊢; omega)]
    simp

/-- Draining a queue of non-terminal events: the live loop delivers them
in order and stays live. -/
theorem drain_live (es : List Event) :
    ∀ (h : List Event) (d : List Event),
      (∀ e ∈ es, isTerminalEvent e.etype = false) →
      List.foldl applyAction ⟨h, [⟨es.map some, .live, d⟩]⟩ (stepsN es.length) =
        ⟨h, [⟨[], .live, d ++ es⟩]⟩ := by
  induction es with
  | nil => intro h d _; simp [stepsN]
  | cons e rest ih =>
    intro h d hterm
    show List.foldl applyAction _ (stepsN (rest.length + 1)) = _
    have hrep : stepsN (rest.length + 1) = BusAction.step 0 :: stepsN rest.length := rfl
    rw [hrep, List.foldl_cons]
    show List.foldl applyAction (stepSub ⟨h, [⟨(e :: rest).map some, .live, d⟩]⟩ 0)
      (stepsN rest.length) = _
    unfold stepSub
    simp only [List.get?]
    unfold stepOne
    simp only [List.map]
    rw [hterm e (List.mem_cons_self _ _)]
    show List.foldl applyAction ⟨h, [⟨rest.map some, .live, d ++ [e]⟩]⟩ (stepsN rest.length) = _
    rw [ih h (d ++ [e]) (fun x hx => hterm x (List.mem_cons_of_mem _ hx))]
    simp

/-! ### Pipeline orchestrator (`workflow/pipeline.py` lines 58-354)

`run_incident_pipeline` runs Sequential triage, Parallel diagnostics and
the escalation Loop inside one `try`, emitting the fixed event sequence
around them; phase 4 emits `resolved` when `context.get("loop_complete",
False)` is truthy, else `escalating` + `human_takeover` when
`loop_exhausted` is truthy.  The single `except` records the error on the
context (`context["error"] = str(exc)`, on the last successfully
assigned context) and emits one `error` event; nothing is retried.  The
three phase agents are the fallible operations; event types are the
string constants of streaming.py; `_build_report` is abstracted to an
opaque `report` marker since no claim inspects the report body. -/

theorem countP_replicate_false {p : String → Bool} {a : String} (h : p a = false) (n : Nat) :
    List.countP p (List.replicate n a) = 0 := by
  induction n with
  | zero => rfl
  | succ n ih => rw [List.replicate_succ, List.countP_cons, h, ih]; simp

/-! ### Shallow snapshots and nested aliasing (`context.copy()`)

`ParallelAgent.run` hands each branch `context.copy()` — a shallow
`dict.copy`.  The heap model separates the copied binding table (key →
address) from the shared store of mutable cells, so that rebinding a key
and mutating a cell through an address are distinct operations, exactly
as in Python.  `runBranchesSeq` is the branch execution under the
schedule where each coroutine runs without suspending, which is how
`asyncio.gather` runs non-awaiting coroutines: declaration order, store
threaded through. -/

/-- C10: with `max_iterations = 0` (outside the spec's `M ≥ 1` domain)
`LoopAgent.run` executes no sub-agent — the result does not depend on the
sub-agent list — yet the `for`/`else` clause still fires, so the returned
context has `loop_exhausted = True`, `loop_iteration = 0` and
`loop_complete = False` when those keys were absent from the input. -/
theorem loop_zero_iterations (subs : List SubAgentE) (ctx : Ctx)
    (h1 : ctxLookup ctx "loop_iteration" = none)
    (h2 : ctxLookup ctx "loop_complete" = none)
    (_h3 : ctxLookup ctx "loop_exhausted" = none) :
    loopRun subs 0 ctx = loopRun [] 0 ctx ∧
    ∃ cfin, loopRun subs 0 ctx = .ok cfin ∧
      ctxLookup cfin "loop_iteration" = some (.vnat 0) ∧
      ctxLookup cfin "loop_complete" = some (.vbool false) ∧
      ctxLookup cfin "loop_exhausted" = some (.vbool true) := by
  refine ⟨rfl, ctxInsert (loopInit ctx) "loop_exhausted" (.vbool true), rfl, ?_, ?_, ?_⟩
  · rw [ctxLookup_ctxInsert_ne _ _ _ _ (by decide), ctxLookup_loopInit_counter ctx h1]
  · rw [ctxLookup_ctxInsert_ne _ _ _ _ (by decide)]
    unfold loopInit
    rw [ctxLookup_ctxSetdefault, if_pos rfl, ctxLookup_ctxSetdefault, if_neg (by decide), h2]
    rfl
  · rw [ctxLookup_ctxInsert_self]

theorem loop_zero_iterations_witness :
    loopRun [idAgent] 0 ([] : Ctx) = loopRun [] 0 [] ∧
    ∃ cfin, loopRun [idAgent] 0 ([] : Ctx) = .ok cfin ∧
      ctxLookup cfin "loop_iteration" = some (.vnat 0) ∧
      ctxLookup cfin "loop_complete" = some (.vbool false) ∧
      ctxLookup cfin "loop_exhausted" = some (.vbool true) :=
  loop_zero_iterations [idAgent] [] rfl rfl rfl

/-- C5: within one run the escalation level never decreases across
successive verifications: a healthy verification leaves the
`escalation_level` binding unchanged, an unhealthy one advances it to the
next tier of the ordered enumeration with index `min (idx + 1) 3` —
capped so that advancing from `L4_MANAGEMENT` yields `L4_MANAGEMENT` —
and any sequence of verification outcomes is monotone in the level. -/
theorem escalation_level_monotone (c : Ctx) (hs : List Bool) :
    (ctxLookup (verifierRun true c) "escalation_level" = ctxLookup c "escalation_level") ∧
    (∀ l, ctxLookup c "escalation_level" = some (.vlevel l) →
      ctxLookup (verifierRun false c) "escalation_level" =
        some (.vlevel (nextEscalationLevel l))) ∧
    (∀ l, levelIdx (nextEscalationLevel l) = min (levelIdx l + 1) 3) ∧
    (nextEscalationLevel .L4_MANAGEMENT = .L4_MANAGEMENT) ∧
    levelIdx (levelOf c) ≤
      levelIdx (levelOf (hs.foldl (fun acc h => verifierRun h acc) c)) := by
  refine ⟨verifierRun_healthy_level c, ?_, ?_, by decide, ?_⟩
  · intro l hl
    rw [verifierRun_unhealthy_level, hl]
    rfl
  · intro l
    cases l <;> decide
  · induction hs generalizing c with
    | nil => exact Nat.le_refl _
    | cons h rest ih =>
      exact Nat.le_trans (verifierRun_level_mono h c) (ih (verifierRun h c))

theorem escalation_level_monotone_witness :
    (ctxLookup (verifierRun true []) "escalation_level" = ctxLookup [] "escalation_level") ∧
    (∀ l, ctxLookup ([] : Ctx) "escalation_level" = some (.vlevel l) →
      ctxLookup (verifierRun false []) "escalation_level" =
        some (.vlevel (nextEscalationLevel l))) ∧
    (∀ l, levelIdx (nextEscalationLevel l) = min (levelIdx l + 1) 3) ∧
    (nextEscalationLevel .L4_MANAGEMENT = .L4_MANAGEMENT) ∧
    levelIdx (levelOf []) ≤
      levelIdx (levelOf ([false, false].foldl (fun acc h => verifierRun h acc) [])) :=
  escalation_level_monotone [] [false, false]

/-- C6 counterexample: with indicators `["env_var_drift"]` (symptom
`config_drift`) on iteration 2, `_select_action` returns
`rollback_deploy`, which is not in iteration 2's candidate list — the
config-drift override escapes the per-iteration candidate set; moreover
iteration 4 falls back to `["restart_service"]`, not the high-risk list
the claim asserts for every iteration ≥ 3. -/
theorem action_selection_cex :
    selectAction ["env_var_drift"] 2 = "rollback_deploy" ∧
    (action_priority_by_iteration 2).contains "rollback_deploy" = false ∧
    action_priority_by_iteration 4 = ["restart_service"] := by
  decide

/-- C6 amended: the candidate lists are keyed by the iteration number
exactly as claimed for iterations 1, 2 and 3, but every other iteration
(e.g. 4 and beyond) falls back to `["restart_service"]`; the selected
action comes from the current iteration's candidate list except that the
config-drift override on iteration ≥ 2 may return `rollback_deploy` from
outside it (the certificate/TLS override is unreachable because no
severity indicator maps to a certificate symptom); on iteration 1 the
selection always comes from iteration 1's candidate list. -/
theorem action_selection_amended (indicators : List String) (iteration : Nat) :
    (action_priority_by_iteration 1 = ["restart_service", "clear_cache", "drain_connections"] ∧
     action_priority_by_iteration 2 = ["scale_up", "drain_connections", "restart_service"] ∧
     action_priority_by_iteration 3 = ["rollback_deploy", "scale_up", "rotate_certs"] ∧
     (iteration ≠ 1 → iteration ≠ 2 → iteration ≠ 3 →
       action_priority_by_iteration iteration = ["restart_service"])) ∧
    (selectAction indicators iteration ∈ action_priority_by_iteration iteration ∨
     (selectAction indicators iteration = "rollback_deploy" ∧
      (symptomsOf indicators).contains "config_drift" = true ∧ 2 ≤ iteration)) ∧
    selectAction indicators 1 ∈ action_priority_by_iteration 1 := by
  have hcert : ∀ inds : List String,
      ((symptomsOf inds).contains "certificate_expiry"
        || (symptomsOf inds).contains "tls_handshake_failure") = false := by
    intro inds
    rw [Bool.or_eq_false_iff]
    constructor
    · by_contra hc
      have := symptomsOf_range (List.mem_of_elem_eq_true (Bool.not_eq_false _ ▸ hc))
      revert this
      decide
    · by_contra hc
      have := symptomsOf_range (List.mem_of_elem_eq_true (Bool.not_eq_false _ ▸ hc))
      revert this
      decide
  have hsel : ∀ (inds : List String) (it : Nat),
      selectAction inds it ∈ action_priority_by_iteration it ∨
      (selectAction inds it = "rollback_deploy" ∧
       (symptomsOf inds).contains "config_drift" = true ∧ 2 ≤ it) := by
    intro inds it
    simp only [selectAction]
    cases hm : matchedSymptomAction (symptomsOf inds) (action_priority_by_iteration it) with
    | some a =>
      simp only [hm]
      exact Or.inl (matchedSymptomAction_mem hm)
    | none =>
      simp only [hm]
      rw [hcert inds, if_neg (by simp)]
      by_cases hcfg : ((symptomsOf inds).contains "config_drift" && decide (2 ≤ it)) = true
      · rw [if_pos hcfg]
        rw [Bool.and_eq_true, decide_eq_true_iff] at hcfg
        exact Or.inr ⟨rfl, hcfg.1, hcfg.2⟩
      · rw [if_neg hcfg]
        left
        by_cases h1 : it = 1
        · subst h1; decide
        · by_cases h2 : it = 2
          · subst h2; decide
          · by_cases h3 : it = 3
            · subst h3; decide
            · unfold action_priority_by_iteration
              rw [if_neg h1, if_neg h2, if_neg h3]
              decide
  refine ⟨⟨rfl, rfl, rfl, ?_⟩, hsel indicators iteration, ?_⟩
  · intro h1 h2 h3
    unfold action_priority_by_iteration
    rw [if_neg h1, if_neg h2, if_neg h3]
  · rcases hsel indicators 1 with h | ⟨_, _, hle⟩
    · exact h
    · omega

theorem action_selection_amended_witness :
    ((action_priority_by_iteration 1 = ["restart_service", "clear_cache", "drain_connections"] ∧
      action_priority_by_iteration 2 = ["scale_up", "drain_connections", "restart_service"] ∧
      action_priority_by_iteration 3 = ["rollback_deploy", "scale_up", "rotate_certs"] ∧
      ((4 : Nat) ≠ 1 → (4 : Nat) ≠ 2 → (4 : Nat) ≠ 3 →
        action_priority_by_iteration 4 = ["restart_service"])) ∧
     (selectAction ["cpu_critical"] 4 ∈ action_priority_by_iteration 4 ∨
      (selectAction ["cpu_critical"] 4 = "rollback_deploy" ∧
       (symptomsOf ["cpu_critical"]).contains "config_drift" = true ∧ 2 ≤ 4)) ∧
     selectAction ["cpu_critical"] 1 ∈ action_priority_by_iteration 1) :=
  action_selection_amended ["cpu_critical"] 4

/-- C7 counterexample: under the shallow `context.copy()` snapshot, a
branch that mutates a nested mutable value in place is visible to a
sibling before the merge.  The first branch overwrites the cell bound
under `"findings"` with `[7]`; the second branch, reading only through
its own snapshot binding, records `[7]` — not the pre-run value `[]` —
in its own fresh cell, all within `runBranchesSeq`, i.e. before any
merging. -/
theorem parallel_snapshot_cex :
    runBranchesSeq [cexMutator, cexObserver] [("findings", 0)] [[]] =
      ([[("findings", 0)], [("findings", 0), ("saw", 1)]], [[7], [7]]) ∧
    (runBranchesSeq [cexMutator, cexObserver] [("findings", 0)] [[]]).2.getD 1 [] = [7] ∧
    ([[]] : Store).getD 0 [] = [] := by
  decide

/-- C7 amended: each branch receives an independent snapshot of the
key-binding table only (Python's shallow `dict.copy`): when every branch
leaves the shared store untouched — i.e. only rebinds keys in its own
table — branch outputs are exactly what each agent computes from the
original input snapshot, unaffected by its siblings, and the merge is
applied only to the completed branch outputs, after all branches have
run.  Mutations of a nested mutable cell, by contrast, are shared (see
the counterexample). -/
theorem parallel_snapshot_amended (agents : List HAgent) (ctx : HCtx) (st : Store)
    (h : ∀ a ∈ agents, ∀ c s, (a c s).2 = s) :
    runBranchesSeq agents ctx st = (agents.map (fun a => (a ctx st).1), st) ∧
    parallelRunH agents ctx st =
      ((agents.map (fun a => (a ctx st).1)).foldl hUpdate ctx, st) := by
  have hrun : runBranchesSeq agents ctx st = (agents.map (fun a => (a ctx st).1), st) := by
    induction agents with
    | nil => rfl
    | cons a rest ih =>
      have ha : (a ctx st).2 = st := h a (List.mem_cons_self _ _) ctx st
      have hrest := ih (fun b hb => h b (List.mem_cons_of_mem _ hb))
      unfold runBranchesSeq
      simp [ha, hrest]
  refine ⟨hrun, ?_⟩
  unfold parallelRunH
  rw [hrun]

theorem parallel_snapshot_amended_witness :
    (runBranchesSeq [cexRebinder] [("findings", 0)] [[]] =
      ([cexRebinder].map (fun a => (a [("findings", 0)] [[]]).1), [[]]) ∧
     parallelRunH [cexRebinder] [("findings", 0)] [[]] =
      (([cexRebinder].map (fun a => (a [("findings", 0)] [[]]).1)).foldl
        hUpdate [("findings", 0)], [[]])) :=
  parallel_snapshot_amended [cexRebinder] [("findings", 0)] [[]]
    (by
      intro a ha c s
      rw [List.mem_singleton] at ha
      subst ha
      rfl)

/-- C3, evaluated at the failing input: a subscriber that joins after a
terminal `resolved` event was emitted receives it via history replay,
but the replay loop of `subscribe` never tests for terminal events, so
the subscriber's stream does not end — it falls into the live `while`
loop (phase `live`, first two conjuncts) and even receives a further
event emitted afterwards.  The third conjunct shows the contrast the
docstring promises: a subscriber that receives the same terminal event
through its live queue does end (phase `ended`). -/
theorem terminal_replay_leaves_stream_open :
    (runTrace [.emit ⟨1, "resolved"⟩, .subscribe, .step 0, .step 0]).subs =
      [⟨[], .live, [⟨1, "resolved"⟩]⟩] ∧
    (runTrace [.emit ⟨1, "resolved"⟩, .subscribe, .step 0, .step 0,
        .emit ⟨2, "enriching"⟩, .step 0]).subs =
      [⟨[], .live, [⟨1, "resolved"⟩, ⟨2, "enriching"⟩]⟩] ∧
    (runTrace [.subscribe, .step 0, .emit ⟨1, "resolved"⟩, .step 0]).subs =
      [⟨[], .ended, [⟨1, "resolved"⟩]⟩] := by
  decide

/-- C4 counterexample: the subscriber queue is registered before the
history replay and the replay `for` loop iterates the live history list,
so an event emitted while the subscriber is mid-replay is delivered
twice — once by the history iteration, once from the queue.  Here the
subscriber joins after one event; event 2, emitted after it subscribed,
appears twice in its delivered sequence. -/
theorem replay_duplicate_delivery_cex :
    (runTrace [.emit ⟨1, "enriched"⟩, .subscribe, .step 0, .emit ⟨2, "triaged"⟩,
        .step 0, .step 0, .step 0]).subs =
      [⟨[], .live, [⟨1, "enriched"⟩, ⟨2, "triaged"⟩, ⟨2, "triaged"⟩]⟩] ∧
    List.count (⟨2, "triaged"⟩ : Event)
      [⟨1, "enriched"⟩, ⟨2, "triaged"⟩, ⟨2, "triaged"⟩] = 2 := by
  decide

theorem mergeResults_append (merged : Ctx) (rs1 rs2 : List (String × Except String Ctx)) :
    mergeResults merged (rs1 ++ rs2) = mergeResults (mergeResults merged rs1) rs2 := by
  induction rs1 generalizing merged with
  | nil => rfl
  | cons nr rest ih =>
    obtain ⟨n, r⟩ := nr
    cases r with
    | error msg =>
      show mergeResults (setErrorsEntry merged n msg) (rest ++ rs2) = _
      exact ih (setErrorsEntry merged n msg)
    | ok out =>
      show mergeResults (ctxUpdate merged out) (rest ++ rs2) = _
      exact ih (ctxUpdate merged out)

theorem ctxLookup_errors_mergeResults_ok (merged : Ctx)
    (rs : List (String × Except String Ctx))
    (h : ∀ nr ∈ rs, ∃ out, nr.2 = .ok out ∧ assocLast out "errors" = none) :
    ctxLookup (mergeResults merged rs) "errors" = ctxLookup merged "errors" := by
  induction rs generalizing merged with
  | nil => rfl
  | cons nr rest ih =>
    obtain ⟨n, r⟩ := nr
    obtain ⟨out, hout, hnone⟩ := h (n, r) (List.mem_cons_self _ _)
    simp only at hout
    subst hout
    show ctxLookup (mergeResults (ctxUpdate merged out) rest) "errors" = _
    rw [ih (ctxUpdate merged out) (fun x hx => h x (List.mem_cons_of_mem _ hx))]
    rw [ctxLookup_ctxUpdate, hnone]

/-- C1 counterexample: in a Parallel run where agent `A` fails and the
later agent `B` succeeds, `B`'s output itself binds the key `"errors"`
(a fresh empty map).  The merge records `errors["A"] = "boom"` and then
`merged.update(B's output)` overwrites the whole errors map, so the
merged context does not contain `errors["A"]` — refuting the claim as
universally stated. -/
theorem parallel_failure_isolation_cex :
    parallelRun [⟨"A", fun _ => .error "boom"⟩,
                 ⟨"B", fun _ => .ok [("errors", .vemap []), ("x", .vnat 1)]⟩] [] =
      [("errors", .vemap []), ("x", .vnat 1)] ∧
    emapLookup (errorsOf (parallelRun [⟨"A", fun _ => .error "boom"⟩,
      ⟨"B", fun _ => .ok [("errors", .vemap []), ("x", .vnat 1)]⟩] [])) "A" = none := by
  decide

/-- C1 amended: in a Parallel run over `pre ++ [failAgent] ++ post` where
`failAgent` raises `msg` and every other agent succeeds, provided no
succeeding agent's output itself binds the reserved key `"errors"`, the
merged context maps `errors[failAgent.name]` to `msg`; and — with no
proviso — away from the `"errors"` key the merged context carries every
key produced by the succeeding agents, conflicts resolved in declaration
order (a later successful agent's value wins), falling back to the input
context's binding.  The combinator itself is a total function of the
branch outcomes (`asyncio.gather(..., return_exceptions=True)`), so it
returns normally whatever the branches do. -/
theorem parallel_failure_isolation (pre post : List PAgent) (failAgent : PAgent)
    (ctx : Ctx) (msg : String)
    (hfail : failAgent.run ctx = .error msg)
    (_hpre : ∀ a ∈ pre, ∃ out, a.run ctx = .ok out ∧ assocLast out "errors" = none)
    (hpost : ∀ a ∈ post, ∃ out, a.run ctx = .ok out ∧ assocLast out "errors" = none) :
    (∃ em, ctxLookup (parallelRun (pre ++ failAgent :: post) ctx) "errors" =
        some (.vemap em) ∧ emapLookup em failAgent.name = some msg) ∧
    (∀ key, key ≠ "errors" →
      ctxLookup (parallelRun (pre ++ failAgent :: post) ctx) key =
        match assocLast (successOutputs ((pre ++ failAgent :: post).map
            (fun a => (a.name, a.run ctx)))) key with
        | some v => some v
        | none => ctxLookup ctx key) := by
  constructor
  · unfold parallelRun
    rw [List.map_append, List.map_cons, mergeResults_append, hfail]
    show ∃ em, ctxLookup (mergeResults (setErrorsEntry
        (mergeResults ctx (pre.map (fun a => (a.name, a.run ctx)))) failAgent.name msg)
        (post.map (fun a => (a.name, a.run ctx)))) "errors" = some (.vemap em) ∧
      emapLookup em failAgent.name = some msg
    rw [ctxLookup_errors_mergeResults_ok _ _ ?hpost]
    case hpost =>
      intro nr hnr
      obtain ⟨a, ha, rfl⟩ := List.mem_map.mp hnr
      obtain ⟨out, hout, hnone⟩ := hpost a ha
      exact ⟨out, hout, hnone⟩
    rw [ctxLookup_setErrorsEntry, if_pos rfl]
    exact ⟨_, rfl, emapLookup_emapInsert_self _ _ _⟩
  · intro key hkey
    unfold parallelRun
    exact ctxLookup_mergeResults_ne ctx _ key hkey

theorem parallel_failure_isolation_witness :
    (∃ em, ctxLookup (parallelRun ([wLogs] ++ wMetrics :: [wConfig]) []) "errors" =
        some (.vemap em) ∧ emapLookup em wMetrics.name = some "boom") ∧
    (∀ key, key ≠ "errors" →
      ctxLookup (parallelRun ([wLogs] ++ wMetrics :: [wConfig]) []) key =
        match assocLast (successOutputs (([wLogs] ++ wMetrics :: [wConfig]).map
            (fun a => (a.name, a.run [])))) key with
        | some v => some v
        | none => ctxLookup [] key) :=
  parallel_failure_isolation [wLogs] [wConfig] wMetrics [] "boom" rfl
    (by
      intro a ha
      rw [List.mem_singleton] at ha
      subst ha
      exact ⟨_, rfl, rfl⟩)
    (by
      intro a ha
      rw [List.mem_singleton] at ha
      subst ha
      exact ⟨_, rfl, rfl⟩)

/-- C9: for every Loop invocation (maximum iteration count `M`, fresh
bookkeeping keys on entry, sub-agents that leave the combinator-owned
`loop_iteration`/`loop_exhausted` bindings alone) that returns, the
iteration counter in the returned context never exceeds `M`, and the
completion flag and the exhaustion flag are never both truthy. -/
theorem loop_counter_and_flags (subs : List SubAgentE) (M : Nat) (ctx : Ctx) (cfin : Ctx)
    (hfr1 : ∀ a ∈ subs, PreservesKey a "loop_iteration")
    (hfr2 : ∀ a ∈ subs, PreservesKey a "loop_exhausted")
    (hiter0 : ctxLookup ctx "loop_iteration" = none)
    (hexh0 : ctxLookup ctx "loop_exhausted" = none)
    (hcomp0 : isLoopComplete ctx = false)
    (hrun : loopRun subs M ctx = .ok cfin) :
    (∃ n, n ≤ M ∧ ctxLookup cfin "loop_iteration" = some (.vnat n)) ∧
    ¬(isLoopComplete cfin = true ∧
      truthy (ctxGetD cfin "loop_exhausted" (.vbool false)) = true) := by
  have h0 : ctxLookup (loopInit ctx) "loop_iteration" = some (.vnat 0) :=
    ctxLookup_loopInit_counter ctx hiter0
  have h1 : ctxLookup (loopInit ctx) "loop_exhausted" = none := by
    rw [ctxLookup_loopInit _ _ (by decide) (by decide)]
    exact hexh0
  have h2 : isLoopComplete (loopInit ctx) = false := by
    rw [isLoopComplete_loopInit]
    exact hcomp0
  have := loopGo_safety hfr1 hfr2 M 0 (loopInit ctx) cfin h0 h1 h2 hrun
  rw [Nat.zero_add] at this
  exact this

/-- C2: with fresh bookkeeping keys and frame-respecting sub-agents, the
loop stops at the first iteration `k ≤ M` after which the completion
flag is truthy — returning that iteration's context, with counter `k`
and no `loop_exhausted` binding — and when no iteration sets the flag it
runs exactly `M` iterations and returns the final iteration's context
with `loop_exhausted = True`, counter `M`, and completion flag falsy. -/
theorem loop_exit_behaviour (subs : List SubAgentE) (M : Nat) (ctx : Ctx)
    (hfr1 : ∀ a ∈ subs, PreservesKey a "loop_iteration")
    (hfr2 : ∀ a ∈ subs, PreservesKey a "loop_exhausted")
    (hiter0 : ctxLookup ctx "loop_iteration" = none)
    (hexh0 : ctxLookup ctx "loop_exhausted" = none)
    (hcomp0 : isLoopComplete ctx = false) :
    (∀ k ck, 1 ≤ k → k ≤ M → loopTraj subs (loopInit ctx) k = .ok ck →
      isLoopComplete ck = true →
      (∀ i ci, 1 ≤ i → i < k → loopTraj subs (loopInit ctx) i = .ok ci →
        isLoopComplete ci = false) →
      loopRun subs M ctx = .ok ck ∧
      ctxLookup ck "loop_iteration" = some (.vnat k) ∧
      ctxLookup ck "loop_exhausted" = none) ∧
    (∀ cM, loopTraj subs (loopInit ctx) M = .ok cM →
      (∀ i ci, 1 ≤ i → i ≤ M → loopTraj subs (loopInit ctx) i = .ok ci →
        isLoopComplete ci = false) →
      loopRun subs M ctx = .ok (ctxInsert cM "loop_exhausted" (.vbool true)) ∧
      ctxLookup (ctxInsert cM "loop_exhausted" (.vbool true)) "loop_iteration" =
        some (.vnat M) ∧
      isLoopComplete (ctxInsert cM "loop_exhausted" (.vbool true)) = false ∧
      truthy (ctxGetD (ctxInsert cM "loop_exhausted" (.vbool true)) "loop_exhausted"
        (.vbool false)) = true) := by
  have hexhInit : ctxLookup (loopInit ctx) "loop_exhausted" = none := by
    rw [ctxLookup_loopInit _ _ (by decide) (by decide)]
    exact hexh0
  constructor
  · intro k ck h1k hkM htraj hck hmid
    refine ⟨?_, ?_, ?_⟩
    · unfold loopRun
      exact loopGo_early htraj hck hmid M 0 (loopInit ctx) (by omega) (by omega) rfl
    · obtain ⟨k0, rfl⟩ : ∃ k0, k = k0 + 1 := ⟨k - 1, by omega⟩
      exact loopTraj_counter hfr1 htraj
    · rw [loopTraj_exhausted hfr2 htraj, hexhInit]
  · intro cM htrajM hmid
    have hrun : loopRun subs M ctx = .ok (ctxInsert cM "loop_exhausted" (.vbool true)) := by
      unfold loopRun
      exact loopGo_exhaust M 0 (loopInit ctx) cM
        (fun i ci hi1 hiM hti => hmid i ci hi1 (by omega) hti) rfl
        (by rw [Nat.zero_add]; exact htrajM)
    have hcomInsert : isLoopComplete (ctxInsert cM "loop_exhausted" (.vbool true)) =
        isLoopComplete cM := by
      unfold isLoopComplete ctxGetD
      rw [ctxLookup_ctxInsert_ne _ _ _ _ (by decide)]
    refine ⟨hrun, ?_, ?_, ?_⟩
    · rw [ctxLookup_ctxInsert_ne _ _ _ _ (by decide)]
      cases M with
      | zero =>
        have h0 : loopTraj subs (loopInit ctx) 0 = .ok (loopInit ctx) := rfl
        have hcm : loopInit ctx = cM := by
          have h2 := h0.symm.trans htrajM
          exact (Except.ok.injEq _ _).mp h2
        rw [← hcm, ctxLookup_loopInit_counter ctx hiter0]
      | succ M0 =>
        exact loopTraj_counter hfr1 htrajM
    · rw [hcomInsert]
      cases M with
      | zero =>
        have h0 : loopTraj subs (loopInit ctx) 0 = .ok (loopInit ctx) := rfl
        have hcm : loopInit ctx = cM := by
          have h2 := h0.symm.trans htrajM
          exact (Except.ok.injEq _ _).mp h2
        rw [← hcm, isLoopComplete_loopInit]
        exact hcomp0
      | succ M0 =>
        exact hmid (M0 + 1) cM (by omega) (by omega) htrajM
    · unfold ctxGetD
      rw [ctxLookup_ctxInsert_self]
      rfl

theorem completeOnSecond_preserves (key : String) (hk : "loop_complete" ≠ key) :
    PreservesKey completeOnSecond key := by
  intro c c' h
  unfold completeOnSecond at h
  simp only [Except.ok.injEq] at h
  subst h
  by_cases hc : ctxGetD c "loop_iteration" (.vnat 0) = .vnat 2
  · rw [if_pos hc, ctxLookup_ctxInsert_ne _ _ _ _ hk]
  · rw [if_neg hc]

theorem loop_exit_behaviour_witness :
    loopRun [completeOnSecond] 3 ([] : Ctx) =
      .ok [("loop_iteration", .vnat 2), ("loop_complete", .vbool true)] ∧
    ctxLookup [("loop_iteration", Val.vnat 2), ("loop_complete", Val.vbool true)]
      "loop_iteration" = some (.vnat 2) ∧
    ctxLookup [("loop_iteration", Val.vnat 2), ("loop_complete", Val.vbool true)]
      "loop_exhausted" = none :=
  (loop_exit_behaviour [completeOnSecond] 3 []
      (fun a ha => by
        rw [List.mem_singleton] at ha
        subst ha
        exact completeOnSecond_preserves "loop_iteration" (by decide))
      (fun a ha => by
        rw [List.mem_singleton] at ha
        subst ha
        exact completeOnSecond_preserves "loop_exhausted" (by decide))
      rfl rfl rfl).1 2
    [("loop_iteration", .vnat 2), ("loop_complete", .vbool true)]
    (by omega) (by omega) rfl (by decide)
    (fun i ci h1 h2 htraj => by
      have hi : i = 1 := by omega
      subst hi
      have h0 : loopTraj [completeOnSecond] (loopInit []) 1 =
          .ok [("loop_iteration", Val.vnat 1), ("loop_complete", Val.vbool false)] := rfl
      have hci := (Except.ok.injEq _ _).mp (h0.symm.trans htraj)
      rw [← hci]
      decide)

theorem loop_counter_and_flags_witness :
    (∃ n, n ≤ 3 ∧ ctxLookup [("loop_iteration", Val.vnat 2), ("loop_complete", Val.vbool true)]
        "loop_iteration" = some (.vnat n)) ∧
    ¬(isLoopComplete [("loop_iteration", Val.vnat 2), ("loop_complete", Val.vbool true)] = true ∧
      truthy (ctxGetD [("loop_iteration", Val.vnat 2), ("loop_complete", Val.vbool true)]
        "loop_exhausted" (.vbool false)) = true) :=
  loop_counter_and_flags [completeOnSecond] 3 []
    [("loop_iteration", .vnat 2), ("loop_complete", .vbool true)]
    (fun a ha => by
      rw [List.mem_singleton] at ha
      subst ha
      exact completeOnSecond_preserves "loop_iteration" (by decide))
    (fun a ha => by
      rw [List.mem_singleton] at ha
      subst ha
      exact completeOnSecond_preserves "loop_exhausted" (by decide))
    rfl rfl rfl rfl

/-- C4 amended: a subscriber that joins after exactly the events `pre`
were emitted receives, provided no event is emitted while it is still
replaying history, exactly `pre` in emission order, then blocks on its
empty queue, and events `post` (non-terminal, within queue capacity)
emitted after its replay are each delivered exactly once, in order,
after `pre` — its delivered sequence is exactly `pre ++ post`.  The
proviso is forced by the counterexample: an event emitted mid-replay is
delivered twice. -/
theorem replay_exact_when_uninterrupted (pre post : List Event)
    (hterm : ∀ e ∈ post, isTerminalEvent e.etype = false)
    (hcap : post.length ≤ maxQueueSize) :
    List.foldl applyAction emptyBus
        ((pre.map .emit) ++ ([.subscribe] ++ stepsN (pre.length + 1))) =
      ⟨pre, [⟨[], .live, pre⟩]⟩ ∧
    stepSub ⟨pre, [⟨[], .live, pre⟩]⟩ 0 = ⟨pre, [⟨[], .live, pre⟩]⟩ ∧
    runTrace (((pre.map .emit) ++ ([.subscribe] ++ stepsN (pre.length + 1))) ++
        ((post.map .emit) ++ stepsN post.length)) =
      ⟨pre ++ post, [⟨[], .live, pre ++ post⟩]⟩ := by
  have h1 : List.foldl applyAction emptyBus
      ((pre.map .emit) ++ ([.subscribe] ++ stepsN (pre.length + 1))) =
      ⟨pre, [⟨[], .live, pre⟩]⟩ := by
    rw [List.foldl_append]
    show List.foldl applyAction (List.foldl applyAction ⟨[], []⟩ (pre.map .emit))
      ([.subscribe] ++ stepsN (pre.length + 1)) = _
    rw [emits_no_subs, List.singleton_append, List.foldl_cons]
    show List.foldl applyAction ⟨[] ++ pre, [⟨[], .replay 0, []⟩]⟩
      (stepsN (pre.length + 1)) = _
    simp only [List.nil_append]
    rw [replay_uninterrupted pre.length pre 0 [] [] (by omega)]
    simp
  refine ⟨h1, rfl, ?_⟩
  unfold runTrace
  rw [List.foldl_append, h1, List.foldl_append]
  rw [emits_to_live post pre [] pre (by simpa using hcap)]
  simp only [List.nil_append]
  rw [drain_live post (pre ++ post) pre hterm]

theorem replay_exact_witness :
    List.foldl applyAction emptyBus
        (([⟨1, "received"⟩, ⟨2, "enriching"⟩, ⟨3, "triaged"⟩] : List Event).map .emit ++
          ([.subscribe] ++
            stepsN (([⟨1, "received"⟩, ⟨2, "enriching"⟩, ⟨3, "triaged"⟩] : List Event).length
              + 1))) =
      ⟨[⟨1, "received"⟩, ⟨2, "enriching"⟩, ⟨3, "triaged"⟩],
       [⟨[], .live, [⟨1, "received"⟩, ⟨2, "enriching"⟩, ⟨3, "triaged"⟩]⟩]⟩ ∧
    stepSub ⟨[⟨1, "received"⟩, ⟨2, "enriching"⟩, ⟨3, "triaged"⟩],
        [⟨[], .live, [⟨1, "received"⟩, ⟨2, "enriching"⟩, ⟨3, "triaged"⟩]⟩]⟩ 0 =
      ⟨[⟨1, "received"⟩, ⟨2, "enriching"⟩, ⟨3, "triaged"⟩],
       [⟨[], .live, [⟨1, "received"⟩, ⟨2, "enriching"⟩, ⟨3, "triaged"⟩]⟩]⟩ ∧
    runTrace ((([⟨1, "received"⟩, ⟨2, "enriching"⟩, ⟨3, "triaged"⟩] : List Event).map .emit ++
          ([.subscribe] ++
            stepsN (([⟨1, "received"⟩, ⟨2, "enriching"⟩, ⟨3, "triaged"⟩] : List Event).length
              + 1))) ++
        (([⟨4, "remediating"⟩] : List Event).map .emit ++
          stepsN ([⟨4, "remediating"⟩] : List Event).length)) =
      ⟨[⟨1, "received"⟩, ⟨2, "enriching"⟩, ⟨3, "triaged"⟩] ++ [⟨4, "remediating"⟩],
       [⟨[], .live,
         [⟨1, "received"⟩, ⟨2, "enriching"⟩, ⟨3, "triaged"⟩] ++ [⟨4, "remediating"⟩]⟩]⟩ :=
  replay_exact_when_uninterrupted
    [⟨1, "received"⟩, ⟨2, "enriching"⟩, ⟨3, "triaged"⟩] [⟨4, "remediating"⟩]
    (by decide) (by decide)

/-- C8: every run of the orchestrator ends in exactly one of the three
terminal outcomes — exactly one terminal event type (`resolved`,
`human_takeover` or `error`) is emitted per run and it is the last event
— given the escalation loop's own guarantee (proved as
`loopRun_complete_or_exhausted`) that its result carries the completion
or the exhaustion flag; and any phase error is caught once at the
orchestrator boundary: a triage failure is recorded under the context's
`error` key, surfaced as a terminal `error` event, and the remaining
phases emit nothing (the run's event list stops at that `error`). -/
theorem pipeline_single_terminal (ph : PipelinePhases) (ctx0 : Ctx)
    (hloop : ∀ c c', ph.escalation c = .ok c' →
      isLoopComplete c' = true ∨
      truthy (ctxGetD c' "loop_exhausted" (.vbool false)) = true) :
    List.countP isTerminalEvent (runPipeline ph ctx0).2 = 1 ∧
    (∃ t, (runPipeline ph ctx0).2.getLast? = some t ∧ isTerminalEvent t = true) ∧
    (∀ e, ph.triage ctx0 = .error e →
      (runPipeline ph ctx0).1 = ctxInsert ctx0 "error" (.vstr e) ∧
      (runPipeline ph ctx0).2 = ["received", "enriching", "error"]) := by
  have hrepl : ∀ n, List.countP isTerminalEvent
      (List.replicate n "remediation_attempted") = 0 :=
    countP_replicate_false (by decide)
  cases ht : ph.triage ctx0 with
  | error e =>
    have hpipe : runPipeline ph ctx0 =
        (ctxInsert ctx0 "error" (.vstr e), ["received", "enriching", "error"]) := by
      unfold runPipeline
      rw [ht]
      rfl
    have hev : (runPipeline ph ctx0).2 = ["received", "enriching", "error"] := by
      rw [hpipe]
    refine ⟨by rw [hev]; decide, ⟨"error", by rw [hev]; decide, by decide⟩, ?_⟩
    intro e' he'
    injection he' with h
    subst h
    exact ⟨by rw [hpipe], hev⟩
  | ok c1 =>
    cases hd : ph.diagnostics c1 with
    | error e =>
      have hpipe : runPipeline ph ctx0 = (ctxInsert c1 "error" (.vstr e),
          ["received", "enriching", "enriched", "triaging", "triaged", "diagnosing_logs",
           "diagnosing_metrics", "diagnosing_config", "error"]) := by
        unfold runPipeline
        simp only [ht, hd]
        rfl
      have hev : (runPipeline ph ctx0).2 =
          ["received", "enriching", "enriched", "triaging", "triaged", "diagnosing_logs",
           "diagnosing_metrics", "diagnosing_config", "error"] := by
        rw [hpipe]
      exact ⟨by rw [hev]; decide, ⟨"error", by rw [hev]; decide, by decide⟩,
        fun e' he' => absurd he' (by simp)⟩
    | ok c2 =>
      cases hl : ph.escalation c2 with
      | error e =>
        have hpipe : runPipeline ph ctx0 = (ctxInsert c2 "error" (.vstr e),
            ["received", "enriching", "enriched", "triaging", "triaged", "diagnosing_logs",
             "diagnosing_metrics", "diagnosing_config", "diagnostics_complete", "remediating",
             "error"]) := by
          unfold runPipeline
          simp only [ht, hd, hl]
          rfl
        have hev : (runPipeline ph ctx0).2 =
            ["received", "enriching", "enriched", "triaging", "triaged", "diagnosing_logs",
             "diagnosing_metrics", "diagnosing_config", "diagnostics_complete", "remediating",
             "error"] := by
          rw [hpipe]
        exact ⟨by rw [hev]; decide, ⟨"error", by rw [hev]; decide, by decide⟩,
          fun e' he' => absurd he' (by simp)⟩
      | ok c3 =>
        have hcase : isLoopComplete c3 = true ∨
            (isLoopComplete c3 = false ∧
             truthy (ctxGetD c3 "loop_exhausted" (.vbool false)) = true) := by
          rcases hloop c2 c3 hl with h | h
          · exact Or.inl h
          · by_cases hc : isLoopComplete c3 = true
            · exact Or.inl hc
            · exact Or.inr ⟨Bool.not_eq_true _ ▸ hc, h⟩
        rcases hcase with hres | ⟨hnres, hexh⟩
        · have hev : (runPipeline ph ctx0).2 =
              (["received", "enriching", "enriched", "triaging", "triaged", "diagnosing_logs",
                "diagnosing_metrics", "diagnosing_config", "diagnostics_complete",
                "remediating"] ++
                (List.replicate (actionCount c3) "remediation_attempted" ++
                  ["verifying", "verification_result"])) ++ ["resolved"] := by
            unfold runPipeline
            simp only [ht, hd, hl]
            rw [if_pos hres]
            simp
          refine ⟨?_, ⟨"resolved", ?_, by decide⟩, fun e' he' => absurd he' (by simp)⟩
          · rw [hev]
            simp only [List.countP_append, hrepl]
            decide
          · rw [hev, List.getLast?_concat]
        · have hev : (runPipeline ph ctx0).2 =
              ((["received", "enriching", "enriched", "triaging", "triaged", "diagnosing_logs",
                "diagnosing_metrics", "diagnosing_config", "diagnostics_complete",
                "remediating"] ++
                (List.replicate (actionCount c3) "remediation_attempted" ++
                  ["verifying", "verification_result"])) ++ ["escalating"]) ++
                ["human_takeover"] := by
            unfold runPipeline
            simp only [ht, hd, hl]
            rw [if_neg (by rw [hnres]; exact Bool.false_ne_true), if_pos hexh]
            simp
          refine ⟨?_, ⟨"human_takeover", ?_, by decide⟩, fun e' he' => absurd he' (by simp)⟩
          · rw [hev]
            simp only [List.countP_append, hrepl]
            decide
          · rw [hev, List.getLast?_concat]

theorem pipeline_single_terminal_witness :
    List.countP isTerminalEvent (runPipeline wPhases []).2 = 1 ∧
    (∃ t, (runPipeline wPhases []).2.getLast? = some t ∧ isTerminalEvent t = true) ∧
    (∀ e, wPhases.triage [] = .error e →
      (runPipeline wPhases []).1 = ctxInsert [] "error" (.vstr e) ∧
      (runPipeline wPhases []).2 = ["received", "enriching", "error"]) :=
  pipeline_single_terminal wPhases []
    (fun c c' h => loopRun_complete_or_exhausted [] 0 c c' h)

end IncidentResponse

